import Mathlib

/-!
Verification development for the django_web_server repository.

The Python source is shallowly embedded: strings are `List Char`, byte
buffers are `List Nat`, wall-clock times are `Int`, and the websocket / LLM
side effects are represented by explicit message lists.  Every definition is
translated from the corresponding function in `src/app`, keeping the source
branch structure; whitespace is modelled by the ASCII whitespace set
(space, tab, newline, carriage return, vertical tab, form feed), the set
relevant to all inputs considered here.
-/

namespace DjangoWebServer

/-- Python `str.isspace` / regex `\s`, restricted to the ASCII whitespace
characters (the only whitespace appearing in the embedded texts). -/
def isPySpace (c : Char) : Bool :=
  c = ' ' || c = '\t' || c = '\n' || c = '\r' || c = '\x0b' || c = '\x0c'

/-- Python `str.strip()`: drop whitespace from both ends. -/
def pyStrip (l : List Char) : List Char :=
  ((l.dropWhile isPySpace).reverse.dropWhile isPySpace).reverse

/-- Generic left-to-right rewriting scanner, the shape shared by every
`re.sub`-style pass in the source.  `step l` returns `some (e, r)` when a
match starts at the head of `l`: `e` is emitted in place of the consumed
text and scanning resumes at `r`; on `none` the head character is copied
and scanning advances one position.  Fuel-indexed to keep the recursion
structural; every concrete `step` below consumes at least one character,
so fuel `l.length` always suffices. -/
def scanF (step : List Char → Option (List Char × List Char)) :
    Nat → List Char → List Char
  | 0, l => l
  | _ + 1, [] => []
  | f + 1, c :: cs =>
    match step (c :: cs) with
    | some (e, r) => e ++ scanF step f r
    | none => c :: scanF step f cs

/-- The hidden-span start marker from `consumers.py` / `llm_client.py`. -/
def startMarker : List Char := ['<', 't', 'h', 'i', 'n', 'k', '>']

/-- The hidden-span end marker. -/
def endMarker : List Char := ['<', '/', 't', 'h', 'i', 'n', 'k', '>']

/-- First occurrence of the end marker: `some r` is the text after it.
Embeds the search for the lazy `.*?</think>` tail of the regex in
`filter_think_tags`. -/
def findClose : List Char → Option (List Char)
  | [] => none
  | c :: cs =>
    if endMarker.isPrefixOf (c :: cs) then some ((c :: cs).drop 8)
    else findClose cs

/-- Match step for `re.sub(r'<think>.*?</think>', '', text, flags=DOTALL)`:
a match starts here iff the start marker is a prefix and some end marker
follows (the lazy match ends at the first one). -/
def rtStep (l : List Char) : Option (List Char × List Char) :=
  if startMarker.isPrefixOf l then
    match findClose (l.drop 7) with
    | some r => some ([], r)
    | none => none
  else none

/-- `re.sub(r'<think>.*?</think>', '', text, flags=re.DOTALL)` from
`llm_client.filter_think_tags`. -/
def removeThink (l : List Char) : List Char := scanF rtStep l.length l

/-- Index of the last newline in a list, if any. -/
def lastNl : List Char → Option Nat
  | [] => none
  | c :: cs =>
    match lastNl cs with
    | some k => some (k + 1)
    | none => if c = '\n' then some 0 else none

/-- Match step for `re.sub(r'\n\s*\n', '\n', text)`: a match starts at a
newline whose following maximal whitespace run contains another newline;
the greedy `\s*` backtracks to the last such newline. -/
def clStep : List Char → Option (List Char × List Char)
  | [] => none
  | c :: cs =>
    if c = '\n' then
      match lastNl (cs.takeWhile isPySpace) with
      | some k => some (['\n'], cs.drop (k + 1))
      | none => none
    else none

/-- `re.sub(r'\n\s*\n', '\n', text)` from `llm_client.filter_think_tags`. -/
def collapseBlank (l : List Char) : List Char := scanF clStep l.length l

/-- `llm_client.filter_think_tags`: remove `<think>…</think>` spans, collapse
blank lines, strip surrounding whitespace. -/
def filter_think_tags (l : List Char) : List Char :=
  pyStrip (collapseBlank (removeThink l))

/-! ### The metadata-tag cleaner `utils.clean_recognition_text` -/

/-- The closing `\|>` of a metadata tag, expected right after the greedy
`[^|]*` run. -/
def tagTail : List Char → Option (List Char)
  | d1 :: d2 :: r => if d1 = '|' ∧ d2 = '>' then some r else none
  | _ => none

/-- Match one `<\|[^|]*\|>` tag; `some r` is the remaining text. The greedy
`[^|]*` necessarily stops at the first `|`, which must be followed by `>`. -/
def matchTag : List Char → Option (List Char)
  | c1 :: c2 :: rest =>
    if c1 = '<' ∧ c2 = '|' then
      tagTail (rest.drop ((rest.takeWhile (fun c => !(c = '|'))).length))
    else none
  | _ => none

/-- Match step for `re.sub(r'<\|[^|]*\|><\|[^|]*\|><\|[^|]*\|>\s*', '', t)`. -/
def ttStep (l : List Char) : Option (List Char × List Char) :=
  match matchTag l with
  | some r1 =>
    match matchTag r1 with
    | some r2 =>
      match matchTag r2 with
      | some r3 => some ([], r3.dropWhile isPySpace)
      | none => none
    | none => none
  | none => none

/-- Match step for `re.sub(r'<\|[^|]*\|>\s*', '', t)`. -/
def stStep (l : List Char) : Option (List Char × List Char) :=
  match matchTag l with
  | some r => some ([], r.dropWhile isPySpace)
  | none => none

/-- First substitution pass of `clean_recognition_text` (triple tag). -/
def subTriple (l : List Char) : List Char := scanF ttStep l.length l

/-- Second substitution pass of `clean_recognition_text` (single tag). -/
def subSingle (l : List Char) : List Char := scanF stStep l.length l

/-- `utils.clean_recognition_text`. -/
def clean_recognition_text (l : List Char) : List Char :=
  if l = [] then l else pyStrip (subSingle (subTriple l))

/-! ### The character-level streaming filter of
`StreamChatConsumer.call_llm_and_respond` (consumers.py lines 323-420). -/

/-- The mutable locals of the streaming filter loop:
`in_think_block`, `is_start_output`, `pending_content`. -/
structure FilterState where
  inThink : Bool
  isStart : Bool
  pending : List Char
deriving DecidableEq, Repr

/-- Initial filter state: `in_think_block = False`, `is_start_output = True`,
`pending_content = ""`. -/
def initFS : FilterState := ⟨false, true, []⟩

/-- One iteration of the `for char in chunk` loop, returning the new state
and the characters sent to the client (`ai_chunk` payloads) by this step. -/
def stepChar (st : FilterState) (c : Char) : FilterState × List Char :=
  if st.inThink then
    -- 在think块内，检查结束标签
    if c = '<' ∧ st.pending = [] then ({ st with pending := ['<'] }, [])
    else if st.pending ≠ [] ∧ st.pending.length < 8 then
      let p := st.pending ++ [c]
      if p = endMarker then ({ st with inThink := false, pending := [] }, [])
      else if p.isPrefixOf endMarker = false then ({ st with pending := [] }, [])
      else ({ st with pending := p }, [])
    else ({ st with pending := [] }, [])
  else if st.isStart then
    -- 在开头状态（且不在think块内）
    if isPySpace c then (st, [])
    else if c = '<' then ({ st with pending := ['<'] }, [])
    else if st.pending ≠ [] ∧ st.pending.length < 7 then
      let p := st.pending ++ [c]
      if p = startMarker then ({ st with inThink := true, pending := [] }, [])
      else if p.isPrefixOf startMarker = false then
        ({ st with isStart := false, pending := [] }, p)
      else ({ st with pending := p }, [])
    else ({ st with isStart := false, pending := [] }, st.pending ++ [c])
  else
    -- 正常状态（非开头，非think块）
    if c = '<' ∧ st.pending = [] then ({ st with pending := ['<'] }, [])
    else if st.pending ≠ [] ∧ st.pending.length < 7 then
      let p := st.pending ++ [c]
      if p = startMarker then ({ st with inThink := true, pending := [] }, [])
      else if p.isPrefixOf startMarker = false then ({ st with pending := [] }, p)
      else ({ st with pending := p }, [])
    else (st, [c])

/-- Run the filter over a list of characters, collecting all emitted text. -/
def processChars : FilterState → List Char → FilterState × List Char
  | st, [] => (st, [])
  | st, c :: cs =>
    ((processChars (stepChar st c).1 cs).1,
     (stepChar st c).2 ++ (processChars (stepChar st c).1 cs).2)

/-- Full streaming filter on a complete character stream, including the
end-of-stream flush `if pending_content and not in_think_block and not
is_start_output: send(pending_content)`. -/
def streamFilter (l : List Char) : List Char :=
  (processChars initFS l).2 ++
    (if (processChars initFS l).1.pending ≠ [] ∧
        (processChars initFS l).1.inThink = false ∧
        (processChars initFS l).1.isStart = false
     then (processChars initFS l).1.pending else [])

/-! ### Structured inputs relating the two filters

The amended C1 statement quantifies over inputs built from leading
whitespace, well-formed hidden spans, and visible segments. -/

/-- One piece of a structured LLM reply: a hidden `<think>…</think>` span
or a visible segment. -/
inductive RItem where
  | span (b : List Char)
  | seg (p : List Char)
deriving DecidableEq, Repr

/-- The text of one piece. -/
def renderItem : RItem → List Char
  | .span b => startMarker ++ (b ++ endMarker)
  | .seg p => p

/-- The visible text of one piece. -/
def visibleOf : RItem → List Char
  | .span _ => []
  | .seg p => p

/-- Well-formedness: span bodies contain no `<`; visible segments contain
neither `<` nor whitespace. -/
def goodItem : RItem → Bool
  | .span b => b.all (fun c => !(c = '<'))
  | .seg p => p.all (fun c => !(c = '<') && !(isPySpace c))

/-- A structured input: leading whitespace followed by the pieces. -/
def renderInput (ws : List Char) (items : List RItem) : List Char :=
  ws ++ (items.map renderItem).flatten

/-- The visible text of a structured input. -/
def visibleConcat (items : List RItem) : List Char :=
  (items.map visibleOf).flatten

/-! ### The connection pool `funasr_pool.FunASRConnectionPool`

A `PooledConnection`'s `client` is represented by its `connected` flag
(`FunASRClient.is_connected()`); network traffic is outside the model.
The `user_connections` dict maps a user id to the list index of its
connection (Python stores the object reference; indices are equivalent as
long as no sweep reorders the list between the modelled operations, which
none of the modelled scenarios does). -/

/-- `funasr_pool.PooledConnection`. -/
structure PConn where
  connected : Bool
  created_at : Int
  last_used : Int
  in_use : Bool
  user_id : Option String
deriving DecidableEq, Repr

/-- The bookkeeping state of `FunASRConnectionPool`. -/
structure PoolState where
  min_connections : Nat
  max_connections : Nat
  max_idle_time : Int
  connections : List PConn
  user_connections : List (String × Nat)
deriving DecidableEq, Repr

/-- First binding of a user in the association list (dict lookup). -/
def lookupA (m : List (String × Nat)) (u : String) : Option Nat :=
  match m with
  | [] => none
  | (v, i) :: rest => if v = u then some i else lookupA rest u

/-- Delete a user's binding (dict `del`). -/
def eraseKey (m : List (String × Nat)) (u : String) : List (String × Nat) :=
  m.filter (fun p => !(p.1 = u))

/-- Apply `f` to the element at index `i` (mutation of a list element). -/
def updateAt : List α → Nat → (α → α) → List α
  | [], _, _ => []
  | x :: xs, 0, f => f x :: xs
  | x :: xs, n + 1, f => x :: updateAt xs n f

/-- Index of the first element satisfying `p` (the `for conn in
self.connections` scan). -/
def findIdxP (p : α → Bool) : List α → Option Nat
  | [] => none
  | x :: xs => if p x then some 0 else (findIdxP p xs).map (· + 1)

/-- `FunASRConnectionPool._remove_user_connection`. -/
def remove_user_connection (st : PoolState) (u : String) (now : Int) :
    PoolState :=
  match lookupA st.user_connections u with
  | some i =>
    { st with
      connections := updateAt st.connections i
        (fun c => { c with in_use := false, user_id := none, last_used := now }),
      user_connections := eraseKey st.user_connections u }
  | none => st

/-- A connection freshly produced by `_create_connection` and immediately
bound in `get_connection` (`in_use = True`, `user_id = user`,
`last_used = now`); creation succeeds connected and configured. -/
def newConn (u : String) (now : Int) : PConn :=
  ⟨true, now, now, true, some u⟩

/-- The free-connection predicate of the scan in `get_connection`:
`not conn.in_use and conn.client.is_connected()`. -/
def isFreeLive (c : PConn) : Bool := !c.in_use && c.connected

/-- The part of `get_connection` after the existing-binding check: scan for
a free live connection, else create one when below `max_connections`.
`createOk` tells whether `_create_connection` would succeed (its
`connect()` + `send_config` can raise); on failure the exception is caught
and the bookkeeping is left untouched, falling through to `None`. -/
def acquireFresh (st : PoolState) (u : String) (now : Int) (createOk : Bool) :
    PoolState × Option Nat :=
  match findIdxP isFreeLive st.connections with
  | some i =>
    ({ st with
       connections := updateAt st.connections i
         (fun c => { c with in_use := true, user_id := some u, last_used := now }),
       user_connections := (u, i) :: st.user_connections }, some i)
  | none =>
    if st.connections.length < st.max_connections then
      if createOk then
        ({ st with
           connections := st.connections ++ [newConn u now],
           user_connections := (u, st.connections.length) :: st.user_connections },
         some st.connections.length)
      else (st, none)
    else (st, none)

/-- `FunASRConnectionPool.get_connection`. -/
def get_connection (st : PoolState) (u : String) (now : Int) (createOk : Bool) :
    PoolState × Option Nat :=
  match lookupA st.user_connections u with
  | some i =>
    match st.connections.get? i with
    | some c =>
      if c.connected then
        ({ st with
           connections := updateAt st.connections i
             (fun c => { c with last_used := now }) }, some i)
      else acquireFresh (remove_user_connection st u now) u now createOk
    | none => acquireFresh (remove_user_connection st u now) u now createOk
  | none => acquireFresh st u now createOk

/-- A pool as left by `initialize()` with `n` successfully created
connections, none in use, at time 0. -/
def mkPool (mn mx : Nat) (idl : Int) (n : Nat) : PoolState :=
  ⟨mn, mx, idl, List.replicate n ⟨true, 0, 0, false, none⟩, []⟩

/-- A sequence of `get_connection` calls (at time 0, creation succeeding),
returning the final state and the per-call results. -/
def runAcquires : PoolState → List String → PoolState × List (Option Nat)
  | st, [] => (st, [])
  | st, u :: us =>
    let (st1, r) := get_connection st u 0 true
    let (st2, rs) := runAcquires st1 us
    (st2, r :: rs)

/-- The pool contents reached by binding the owners `done` in order, one
connection each, starting from `n` initial free connections (at time 0):
the first `done.length` connections are bound, the rest still free. -/
def boundConns (done : List String) (n : Nat) : List PConn :=
  done.map (fun v => ⟨true, 0, 0, true, some v⟩) ++
    List.replicate (n - done.length) ⟨true, 0, 0, false, none⟩

/-- `for i in reversed(connections_to_remove): self.connections.pop(i)`. -/
def removeIdxRev (conns : List PConn) (idxs : List Nat) : List PConn :=
  idxs.reverse.foldl (fun cs i => cs.eraseIdx i) conns

/-- One tick of `FunASRConnectionPool._cleanup_idle_connections`: collect
the indices of candidates, then remove them back to front.  The length
guard `len(self.connections) > self.min_connections` is evaluated against
the unchanged list during collection, exactly as in the source. -/
def cleanup_idle_tick (st : PoolState) (now : Int) : PoolState :=
  let toRemove := (List.range st.connections.length).filter (fun i =>
    match st.connections.get? i with
    | some c =>
      !c.in_use && decide (st.connections.length > st.min_connections)
        && decide (now - c.last_used > st.max_idle_time)
    | none => false)
  { st with connections := removeIdxRev st.connections toRemove }

/-! ### The per-event body of `StreamChatConsumer.handle_funasr_responses`
(consumers.py lines 252-286), with `call_llm_and_respond` awaited inline:
the call is represented by an `llmCall` action and leaves
`is_ai_speaking` as it found it (set in `call_llm_and_respond`, reset in
its `finally`). -/

/-- A parsed recognition event (`data` dict): `text` key if present, and
the `mode` field (defaulting to the empty string). -/
structure RecEvent where
  text : Option (List Char)
  mode : List Char
deriving DecidableEq, Repr

/-- The per-session mutable state touched by the listener. -/
structure SessState where
  accumulated_text : List Char
  last_complete_text : List Char
  is_ai_speaking : Bool
deriving DecidableEq, Repr

/-- Messages sent to the client / LLM by one event. -/
inductive SAction where
  | partialMsg (t : List Char)
  | finalMsg (t : List Char)
  | llmCall (t : List Char)
deriving DecidableEq, Repr

def modeOnline : List Char := ['2', 'p', 'a', 's', 's', '-', 'o', 'n', 'l', 'i', 'n', 'e']
def modeOff2 : List Char := ['2', 'p', 'a', 's', 's', '-', 'o', 'f', 'f', 'l', 'i', 'n', 'e']
def modeOff : List Char := ['o', 'f', 'f', 'l', 'i', 'n', 'e']

/-- Handling of one non-`None` event by `handle_funasr_responses`
(with `is_running = True`). -/
def handle_funasr_event (st : SessState) (ev : RecEvent) :
    SessState × List SAction :=
  match ev.text with
  | none => (st, [])
  | some raw =>
    if st.is_ai_speaking then (st, [])
    else if ev.mode = modeOnline then
      ({ st with accumulated_text := raw },
       [.partialMsg (clean_recognition_text raw)])
    else if ev.mode = modeOff2 ∨ ev.mode = modeOff then
      let d := clean_recognition_text raw
      if d ≠ [] ∧ pyStrip d ≠ [] ∧ d ≠ st.last_complete_text then
        ({ accumulated_text := raw, last_complete_text := d,
           is_ai_speaking := st.is_ai_speaking },
         [.finalMsg d, .llmCall d])
      else ({ st with accumulated_text := raw }, [])
    else (st, [])

/-- Number of LLM calls among a list of actions. -/
def llmCount (as : List SAction) : Nat :=
  (as.filter (fun a => match a with | .llmCall _ => true | _ => false)).length

/-! ### Batch recognition `FunASRClient.recognize_audio` -/

/-- An event of the batch result loop: optional `text`, the `mode`, and the
`is_final` flag. -/
structure BEvent where
  text : Option (List Char)
  mode : List Char
  is_final : Bool
deriving DecidableEq, Repr

/-- Text accumulation of one event in `handle_recognition_results`:
`accumulated_text += raw_text + " "` for non-empty offline-mode text. -/
def accumStep (acc : List Char) (e : BEvent) : List Char :=
  match e.text with
  | some t =>
    if pyStrip t ≠ [] ∧ (e.mode = modeOff ∨ e.mode = modeOff2) then
      acc ++ pyStrip t ++ [' ']
    else acc
  | none => acc

/-- The batch result loop over a finite event stream (`none` entries are
receive timeouts, skipped; the stream running out models the overall
60-second cutoff): accumulate text, stop after the first `is_final`. -/
def accumLoop : List Char → List (Option BEvent) → List Char
  | acc, [] => acc
  | acc, none :: es => accumLoop acc es
  | acc, some e :: es =>
    let acc1 := accumStep acc e
    if e.is_final then acc1 else accumLoop acc1 es

/-- The string returned by `recognize_audio`:
`clean_recognition_text(accumulated_text.strip())`. -/
def recognizeReturn (events : List (Option BEvent)) : List Char :=
  clean_recognition_text (pyStrip (accumLoop [] events))

/-- The finalized text fragments of an event stream, as the spec's words
for C5 describe them ("all finalized text fragments received", up to the
first explicitly final event): spec-side companion definition used to
compare the claimed return value with the code's. -/
def specFinalFragments : List (Option BEvent) → List (List Char)
  | [] => []
  | none :: es => specFinalFragments es
  | some e :: es =>
    (match e.text with
     | some t =>
       if pyStrip t ≠ [] ∧ (e.mode = modeOff ∨ e.mode = modeOff2) then
         [pyStrip t]
       else []
     | none => []) ++ (if e.is_final then [] else specFinalFragments es)

/-- Join fragments, each followed by one space (the accumulation format of
`handle_recognition_results`). -/
def spaceJoin (frags : List (List Char)) : List Char :=
  (frags.map (fun f => f ++ [' '])).flatten

/-- Fixed-size 960-byte framing of the PCM buffer (fuel-indexed; fuel
`l.length` always suffices since each step consumes 960 > 0 bytes). -/
def chunkF : Nat → List Nat → List (List Nat)
  | 0, _ => []
  | _ + 1, [] => []
  | f + 1, c :: cs => ((c :: cs).take 960) :: chunkF f ((c :: cs).drop 960)

/-- The audio frames sent by `recognize_audio`'s send loop
(`chunk = pcm_data[pos:pos + chunk_size]`, `chunk_size = 960`). -/
def chunkBytes (l : List Nat) : List (List Nat) := chunkF l.length l

/-- An ASR control frame as a JSON object with optional keys (the two
config dicts of `recognize_audio` populate different subsets). -/
structure AsrConfig where
  mode : Option (List Char) := none
  chunk_size : Option (List Nat) := none
  chunk_interval : Option Nat := none
  audio_fs : Option Nat := none
  wav_name : Option (List Char) := none
  wav_format : Option (List Char) := none
  is_speaking : Option Bool := none
  hotwords : Option (List Char) := none
  itn : Option Bool := none
deriving DecidableEq, Repr

/-- The offline-mode config dict sent first by `recognize_audio`. -/
def offlineConfig (sampleRate : Nat) : AsrConfig :=
  { mode := some modeOff, chunk_size := some [5, 10, 5],
    chunk_interval := some 10, audio_fs := some sampleRate,
    wav_name := some ['u', 'p', 'l', 'o', 'a', 'd', 'e', 'd', '_', 'a', 'u', 'd', 'i', 'o'],
    wav_format := some ['p', 'c', 'm'], is_speaking := some true,
    hotwords := some [], itn := some true }

/-- The end-of-speech config dict `{"is_speaking": False}`. -/
def endSpeechConfig : AsrConfig := { is_speaking := some false }

/-- A frame sent over the websocket. -/
inductive AsrMsg where
  | cfg (c : AsrConfig)
  | pcmFrame (b : List Nat)
deriving DecidableEq, Repr

/-- The complete ordered frame sequence sent by `recognize_audio`. -/
def recognizeSent (pcm : List Nat) (sampleRate : Nat) : List AsrMsg :=
  AsrMsg.cfg (offlineConfig sampleRate) ::
    ((chunkBytes pcm).map AsrMsg.pcmFrame ++ [AsrMsg.cfg endSpeechConfig])

/-! ### `audio_processor.resample_audio` -/

/-- `struct.unpack(f'<{n}h', data)`: decode little-endian signed 16-bit. -/
def toSigned16 (v : Nat) : Int := if v < 32768 then (v : Int) else (v : Int) - 65536

/-- Unpack a byte list into int16 samples, two bytes at a time. -/
def unpackI16 : List Nat → List Int
  | b0 :: b1 :: rest => toSigned16 (b0 % 256 + 256 * (b1 % 256)) :: unpackI16 rest
  | _ => []

/-- `struct.pack('<h', v)` for an in-range value, as two bytes. -/
def packI16 (v : Int) : List Nat :=
  [((v % 65536) % 256).toNat, ((v % 65536) / 256).toNat]

/-- Python `int(q)`: truncation toward zero. -/
def pyTrunc (q : ℚ) : Int := if 0 ≤ q then ⌊q⌋ else -⌊-q⌋

/-- The linear-interpolation loop of `resample_audio` on decoded samples.
Python's float arithmetic is embedded as exact rationals; for the ratios
considered in the claims (2/1 and 1/1) the float computation is exact. -/
def resampleSamples (samples : List Int) (from_rate to_rate : Nat) : List Int :=
  let rq : ℚ := (to_rate : ℚ) / (from_rate : ℚ)
  let newLength : Nat := (pyTrunc ((samples.length : ℚ) * rq)).toNat
  (List.range newLength).map (fun (i : Nat) =>
    let srcPos : ℚ := (i : ℚ) / rq
    let srcIndex : Nat := (pyTrunc srcPos).toNat
    if samples.length - 1 ≤ srcIndex then samples.getLastD 0
    else
      let t : ℚ := srcPos - (srcIndex : ℚ)
      pyTrunc ((samples.getD srcIndex 0 : ℚ) * (1 - t)
        + (samples.getD (srcIndex + 1) 0 : ℚ) * t))

/-- `audio_processor.resample_audio` on raw bytes.  Returns `none` when
`struct.unpack` would raise on an odd-length buffer (only reachable when
the rates differ; equal rates return the input before unpacking). -/
def resamplePcm (pcm : List Nat) (from_rate to_rate : Nat) :
    Option (List Nat) :=
  if from_rate = to_rate then some pcm
  else if pcm.length % 2 ≠ 0 then none
  else some (((resampleSamples (unpackI16 pcm) from_rate to_rate).map packI16).flatten)

/-- Number of 16-bit samples in a PCM byte buffer. -/
def sampleCount (pcm : List Nat) : Nat := pcm.length / 2

/-! ## Theorems -/

/-! ### Fuel bookkeeping for the rewriting scanner -/

/-- A scanner step shrinks its input whenever it matches. -/
def Shrinks (step : List Char → Option (List Char × List Char)) : Prop :=
  ∀ l e r, step l = some (e, r) → r.length < l.length

theorem scanF_congr {step : List Char → Option (List Char × List Char)}
    (hs : Shrinks step) :
    ∀ (f1 : Nat) (l : List Char) (f2 : Nat), l.length ≤ f1 → l.length ≤ f2 →
      scanF step f1 l = scanF step f2 l := by
  intro f1
  induction f1 with
  | zero =>
    intro l f2 h1 _
    have hl : l = [] := List.eq_nil_of_length_eq_zero (Nat.le_zero.mp h1)
    subst hl
    cases f2 <;> simp [scanF]
  | succ n ih =>
    intro l f2 h1 h2
    cases l with
    | nil => cases f2 <;> simp [scanF]
    | cons c cs =>
      cases f2 with
      | zero => simp at h2
      | succ m =>
        simp only [List.length_cons, Nat.add_le_add_iff_right] at h1 h2
        simp only [scanF]
        cases hstep : step (c :: cs) with
        | none =>
          show c :: scanF step n cs = c :: scanF step m cs
          rw [ih cs m h1 h2]
        | some er =>
          obtain ⟨e, r⟩ := er
          have hr : r.length < cs.length + 1 := by
            simpa using hs _ _ _ hstep
          show e ++ scanF step n r = e ++ scanF step m r
          rw [ih r m (by omega) (by omega)]

theorem scan_cons_none {step : List Char → Option (List Char × List Char)}
    {c : Char} {cs : List Char} (h : step (c :: cs) = none) :
    scanF step (c :: cs).length (c :: cs) = c :: scanF step cs.length cs := by
  simp [scanF, h]

theorem scan_cons_some {step : List Char → Option (List Char × List Char)}
    (hs : Shrinks step) {c : Char} {cs e r : List Char}
    (h : step (c :: cs) = some (e, r)) :
    scanF step (c :: cs).length (c :: cs) = e ++ scanF step r.length r := by
  have hr : r.length < cs.length + 1 := by simpa using hs _ _ _ h
  simp only [List.length_cons, scanF, h]
  rw [scanF_congr hs cs.length r r.length (by omega) (le_refl _)]

/-! Shrink proofs for each concrete scanner step. -/

theorem findClose_some_length {l r : List Char} (h : findClose l = some r) :
    r.length < l.length := by
  induction l with
  | nil => simp [findClose] at h
  | cons c cs ih =>
    simp only [findClose] at h
    split at h
    · have hr : r = (c :: cs).drop 8 := by
        injection h with h'
        exact h'.symm
      subst hr
      simp only [List.length_drop, List.length_cons]
      omega
    · have := ih h
      simp only [List.length_cons]
      omega

theorem rtStep_shrinks : Shrinks rtStep := by
  intro l e r h
  cases hfc : findClose (l.drop 7) with
  | none => simp [rtStep, hfc] at h
  | some r' =>
    simp only [rtStep, hfc] at h
    split at h
    · simp only [Option.some.injEq, Prod.mk.injEq] at h
      obtain ⟨-, hr⟩ := h
      subst hr
      have := findClose_some_length hfc
      have hd : (l.drop 7).length ≤ l.length := by
        simp only [List.length_drop]; omega
      omega
    · simp at h

theorem clStep_shrinks : Shrinks clStep := by
  intro l e r h
  cases l with
  | nil => simp [clStep] at h
  | cons c cs =>
    cases hnl : lastNl (cs.takeWhile isPySpace) with
    | none =>
      simp only [clStep, hnl] at h
      split at h <;> simp at h
    | some k =>
      simp only [clStep, hnl] at h
      split at h
      · simp only [Option.some.injEq, Prod.mk.injEq] at h
        obtain ⟨-, hr⟩ := h
        subst hr
        simp only [List.length_drop, List.length_cons]
        omega
      · simp at h

theorem tagTail_some_length {m r : List Char} (h : tagTail m = some r) :
    r.length + 2 ≤ m.length := by
  match m with
  | [] => simp [tagTail] at h
  | [d] => simp [tagTail] at h
  | d1 :: d2 :: rs =>
    simp only [tagTail] at h
    split at h
    · simp only [Option.some.injEq] at h
      subst h
      simp
    · simp at h

theorem matchTag_some_length {l r : List Char} (h : matchTag l = some r) :
    r.length + 4 ≤ l.length := by
  match l with
  | [] => simp [matchTag] at h
  | [c] => simp [matchTag] at h
  | c1 :: c2 :: rest =>
    simp only [matchTag] at h
    split at h
    · have h2 := tagTail_some_length h
      simp only [List.length_drop] at h2
      simp only [List.length_cons]
      omega
    · simp at h

theorem dropWhileLenLe (p : Char → Bool) (l : List Char) :
    (l.dropWhile p).length ≤ l.length :=
  List.Sublist.length_le (List.dropWhile_sublist p)

theorem ttStep_shrinks : Shrinks ttStep := by
  intro l e r h
  cases h1 : matchTag l with
  | none => simp [ttStep, h1] at h
  | some r1 =>
    cases h2 : matchTag r1 with
    | none => simp [ttStep, h1, h2] at h
    | some r2 =>
      cases h3 : matchTag r2 with
      | none => simp [ttStep, h1, h2, h3] at h
      | some r3 =>
        simp only [ttStep, h1, h2, h3, Option.some.injEq, Prod.mk.injEq] at h
        obtain ⟨-, hr⟩ := h
        subst hr
        have l1 := matchTag_some_length h1
        have l2 := matchTag_some_length h2
        have l3 := matchTag_some_length h3
        have ld := dropWhileLenLe isPySpace r3
        omega

theorem stStep_shrinks : Shrinks stStep := by
  intro l e r h
  cases h1 : matchTag l with
  | none => simp [stStep, h1] at h
  | some r1 =>
    simp only [stStep, h1, Option.some.injEq, Prod.mk.injEq] at h
    obtain ⟨-, hr⟩ := h
    subst hr
    have l1 := matchTag_some_length h1
    have ld := dropWhileLenLe isPySpace r1
    omega

/-! ### Equation lemmas for the concrete scanners -/

theorem removeThink_cons_none {c : Char} {cs : List Char}
    (h : rtStep (c :: cs) = none) :
    removeThink (c :: cs) = c :: removeThink cs :=
  scan_cons_none h

theorem removeThink_cons_some {c : Char} {cs e r : List Char}
    (h : rtStep (c :: cs) = some (e, r)) :
    removeThink (c :: cs) = e ++ removeThink r :=
  scan_cons_some rtStep_shrinks h

theorem collapseBlank_cons_none {c : Char} {cs : List Char}
    (h : clStep (c :: cs) = none) :
    collapseBlank (c :: cs) = c :: collapseBlank cs :=
  scan_cons_none h

theorem collapseBlank_cons_some {c : Char} {cs e r : List Char}
    (h : clStep (c :: cs) = some (e, r)) :
    collapseBlank (c :: cs) = e ++ collapseBlank r :=
  scan_cons_some clStep_shrinks h

theorem subTriple_cons_none {c : Char} {cs : List Char}
    (h : ttStep (c :: cs) = none) :
    subTriple (c :: cs) = c :: subTriple cs :=
  scan_cons_none h

theorem subSingle_cons_none {c : Char} {cs : List Char}
    (h : stStep (c :: cs) = none) :
    subSingle (c :: cs) = c :: subSingle cs :=
  scan_cons_none h

/-! ### `isPrefixOf` facts -/

theorem isPrefixOf_append_self : ∀ (s r : List Char), s.isPrefixOf (s ++ r) = true := by
  intro s r
  induction s with
  | nil => simp [List.isPrefixOf]
  | cons c cs ih => simp [List.isPrefixOf, ih]

theorem startMarker_head_ne {c : Char} (hc : c ≠ '<') (t : List Char) :
    startMarker.isPrefixOf (c :: t) = false := by
  simp only [startMarker, List.isPrefixOf, Bool.and_eq_false_iff]
  exact Or.inl (by simpa using fun h => hc h.symm)

theorem endMarker_head_ne {c : Char} (hc : c ≠ '<') (t : List Char) :
    endMarker.isPrefixOf (c :: t) = false := by
  simp only [endMarker, List.isPrefixOf, Bool.and_eq_false_iff]
  exact Or.inl (by simpa using fun h => hc h.symm)

/-! ### Small list helpers -/

theorem dropAppendLe : ∀ (w : List Char) (t : List Char) (n : Nat),
    n ≤ w.length → (w ++ t).drop n = w.drop n ++ t := by
  intro w
  induction w with
  | nil =>
    intro t n hn
    have hn0 : n = 0 := Nat.le_zero.mp hn
    subst hn0
    simp
  | cons c w' ih =>
    intro t n hn
    cases n with
    | zero => simp
    | succ m =>
      simp only [List.cons_append, List.drop_succ_cons]
      exact ih t m (by simpa using hn)

theorem dropLenApp (w t : List Char) : (w ++ t).drop w.length = t := by
  rw [dropAppendLe w t w.length (le_refl _), List.drop_length, List.nil_append]

theorem takeWhileAllApp {p : Char → Bool} :
    ∀ {w : List Char}, (∀ c ∈ w, p c = true) →
      ∀ (t : List Char), (w ++ t).takeWhile p = w ++ t.takeWhile p := by
  intro w
  induction w with
  | nil => intro _ t; simp
  | cons c w' ih =>
    intro hw t
    have hc : p c = true := hw c (by simp)
    simp only [List.cons_append, List.takeWhile_cons, hc, if_true]
    rw [ih (fun d hd => hw d (by simp [hd])) t]

theorem takeWhileNone {p : Char → Bool} {t : List Char}
    (ht : ∀ c ∈ t, p c = false) : t.takeWhile p = [] := by
  cases t with
  | nil => rfl
  | cons c t' =>
    have hc : p c = false := ht c (by simp)
    simp [List.takeWhile_cons, hc]

theorem dropWhileAllApp {p : Char → Bool} :
    ∀ {w : List Char}, (∀ c ∈ w, p c = true) →
      ∀ (t : List Char), (w ++ t).dropWhile p = t.dropWhile p := by
  intro w
  induction w with
  | nil => intro _ t; simp
  | cons c w' ih =>
    intro hw t
    have hc : p c = true := hw c (by simp)
    simp only [List.cons_append, List.dropWhile_cons, hc, if_true]
    exact ih (fun d hd => hw d (by simp [hd])) t

theorem dropWhileNone {p : Char → Bool} {t : List Char}
    (ht : ∀ c ∈ t, p c = false) : t.dropWhile p = t := by
  cases t with
  | nil => rfl
  | cons c t' =>
    have hc : p c = false := ht c (by simp)
    simp [List.dropWhile_cons, hc]

/-! ### `pyStrip` on whitespace-prefixed text -/

theorem pyStrip_ws_app {w p : List Char}
    (hw : ∀ c ∈ w, isPySpace c = true) (hp : ∀ c ∈ p, isPySpace c = false) :
    pyStrip (w ++ p) = p := by
  unfold pyStrip
  rw [dropWhileAllApp hw p, dropWhileNone hp]
  rw [dropWhileNone (fun c hc => hp c (List.mem_reverse.mp hc))]
  exact List.reverse_reverse p

theorem pyStrip_all_ws {w : List Char}
    (hw : ∀ c ∈ w, isPySpace c = true) : pyStrip w = [] := by
  have := pyStrip_ws_app hw (p := []) (by simp)
  simpa using this

/-! ### `removeThink` on well-formed text -/

theorem isPySpace_ne_lt {c : Char} (h : isPySpace c = true) : c ≠ '<' := by
  intro hc
  subst hc
  simp [isPySpace] at h

theorem isPySpace_ne_nl {c : Char} (h : isPySpace c = false) : c ≠ '\n' := by
  intro hc
  subst hc
  simp [isPySpace] at h

theorem rtStep_none_of_ne {c : Char} (hc : c ≠ '<') (cs : List Char) :
    rtStep (c :: cs) = none := by
  unfold rtStep
  rw [startMarker_head_ne hc cs]
  simp

theorem removeThink_pass :
    ∀ (a : List Char), (∀ c ∈ a, c ≠ '<') →
      ∀ (rest : List Char), removeThink (a ++ rest) = a ++ removeThink rest := by
  intro a
  induction a with
  | nil => intro _ rest; simp
  | cons c a' ih =>
    intro ha rest
    have hc : c ≠ '<' := ha c (by simp)
    rw [List.cons_append, removeThink_cons_none (rtStep_none_of_ne hc _)]
    rw [ih (fun d hd => ha d (by simp [hd])) rest, List.cons_append]

theorem findClose_cons (c : Char) (cs : List Char) :
    findClose (c :: cs) =
      if endMarker.isPrefixOf (c :: cs) then some ((c :: cs).drop 8)
      else findClose cs := rfl

theorem findClose_span {b : List Char} (hb : ∀ c ∈ b, c ≠ '<') (rest : List Char) :
    findClose (b ++ (endMarker ++ rest)) = some rest := by
  induction b with
  | nil =>
    have hm : endMarker ++ rest
        = '<' :: (['/', 't', 'h', 'i', 'n', 'k', '>'] ++ rest) := rfl
    rw [List.nil_append, hm, findClose_cons, ← hm, isPrefixOf_append_self]
    simp only [if_true]
    rw [show (8 : Nat) = endMarker.length from rfl, dropLenApp]
  | cons c b' ih =>
    have hc : c ≠ '<' := hb c (by simp)
    rw [List.cons_append, findClose_cons, endMarker_head_ne hc _]
    simp only [Bool.false_eq_true, if_false]
    exact ih (fun d hd => hb d (by simp [hd]))

theorem removeThink_span {b : List Char} (hb : ∀ c ∈ b, c ≠ '<') (rest : List Char) :
    removeThink (startMarker ++ (b ++ (endMarker ++ rest))) = removeThink rest := by
  have hdrop : (startMarker ++ (b ++ (endMarker ++ rest))).drop 7
      = b ++ (endMarker ++ rest) := by
    rw [show (7 : Nat) = startMarker.length from rfl, dropLenApp]
  have hstep : rtStep (startMarker ++ (b ++ (endMarker ++ rest))) = some ([], rest) := by
    unfold rtStep
    rw [isPrefixOf_append_self, hdrop, findClose_span hb rest]
    simp
  have hcons : startMarker ++ (b ++ (endMarker ++ rest))
      = '<' :: (['t', 'h', 'i', 'n', 'k', '>'] ++ (b ++ (endMarker ++ rest))) := rfl
  rw [hcons] at hstep ⊢
  rw [removeThink_cons_some hstep, List.nil_append]

/-! ### `collapseBlank` on whitespace-prefixed text -/

theorem clStep_none_of_ne {c : Char} (hc : c ≠ '\n') (cs : List Char) :
    clStep (c :: cs) = none := by
  simp [clStep, hc]

theorem collapseBlank_no_nl :
    ∀ {l : List Char}, (∀ c ∈ l, c ≠ '\n') → collapseBlank l = l := by
  intro l
  induction l with
  | nil => intro _; rfl
  | cons c cs ih =>
    intro hl
    have hc : c ≠ '\n' := hl c (by simp)
    rw [collapseBlank_cons_none (clStep_none_of_ne hc _)]
    rw [ih (fun d hd => hl d (by simp [hd]))]

theorem lastNl_lt_length : ∀ {l : List Char} {k : Nat}, lastNl l = some k → k < l.length := by
  intro l
  induction l with
  | nil => intro k h; simp [lastNl] at h
  | cons c cs ih =>
    intro k h
    cases hnl : lastNl cs with
    | some j =>
      rw [show lastNl (c :: cs) = some (j + 1) from by simp [lastNl, hnl]] at h
      simp only [Option.some.injEq] at h
      have := ih hnl
      simp only [List.length_cons]
      omega
    | none =>
      rw [show lastNl (c :: cs) = if c = '\n' then some 0 else none from by
        simp [lastNl, hnl]] at h
      split at h
      · simp only [Option.some.injEq] at h
        subst h
        simp
      · simp at h

theorem collapse_ws_aux :
    ∀ (n : Nat) (w p : List Char), w.length + p.length ≤ n →
      (∀ c ∈ w, isPySpace c = true) → (∀ c ∈ p, isPySpace c = false) →
      ∃ w', (∀ c ∈ w', isPySpace c = true) ∧ collapseBlank (w ++ p) = w' ++ p := by
  intro n
  induction n with
  | zero =>
    intro w p hlen _ hp
    have hw0 : w = [] := by
      cases w with
      | nil => rfl
      | cons c cs => simp at hlen
    have hp0 : p = [] := by
      cases p with
      | nil => rfl
      | cons c cs => rw [hw0] at hlen; simp at hlen
    subst hw0; subst hp0
    exact ⟨[], by simp, rfl⟩
  | succ n ih =>
    intro w p hlen hw hp
    cases w with
    | nil =>
      refine ⟨[], by simp, ?_⟩
      simp only [List.nil_append]
      exact collapseBlank_no_nl (fun c hc => isPySpace_ne_nl (hp c hc))
    | cons c w' =>
      simp only [List.length_cons] at hlen
      have hw' : ∀ d ∈ w', isPySpace d = true := fun d hd => hw d (by simp [hd])
      by_cases hc : c = '\n'
      · subst hc
        have htw : (w' ++ p).takeWhile isPySpace = w' := by
          rw [takeWhileAllApp hw' p, takeWhileNone hp, List.append_nil]
        cases hnl : lastNl w' with
        | none =>
          have hstep : clStep ('\n' :: (w' ++ p)) = none := by
            simp [clStep, htw, hnl]
          rw [List.cons_append, collapseBlank_cons_none hstep]
          obtain ⟨w'', hw'', heq⟩ := ih w' p (by omega) hw' hp
          refine ⟨'\n' :: w'', ?_, ?_⟩
          · intro d hd
            rcases List.mem_cons.mp hd with h | h
            · subst h; rfl
            · exact hw'' d h
          · rw [heq, List.cons_append]
        | some k =>
          have hk := lastNl_lt_length hnl
          have hstep : clStep ('\n' :: (w' ++ p))
              = some (['\n'], (w' ++ p).drop (k + 1)) := by
            simp [clStep, htw, hnl]
          have hdrop : (w' ++ p).drop (k + 1) = w'.drop (k + 1) ++ p :=
            dropAppendLe w' p (k + 1) (by omega)
          rw [List.cons_append, collapseBlank_cons_some hstep, hdrop]
          have hlend : (w'.drop (k + 1)).length + p.length ≤ n := by
            simp only [List.length_drop]
            omega
          obtain ⟨w'', hw'', heq⟩ := ih (w'.drop (k + 1)) p hlend
            (fun d hd => hw' d (List.mem_of_mem_drop hd)) hp
          refine ⟨'\n' :: w'', ?_, ?_⟩
          · intro d hd
            rcases List.mem_cons.mp hd with h | h
            · subst h; rfl
            · exact hw'' d h
          · rw [heq]
            simp
      · have hstep : clStep (c :: (w' ++ p)) = none := clStep_none_of_ne hc _
        rw [List.cons_append, collapseBlank_cons_none hstep]
        obtain ⟨w'', hw'', heq⟩ := ih w' p (by omega) hw' hp
        refine ⟨c :: w'', ?_, ?_⟩
        · intro x hx
          rcases List.mem_cons.mp hx with h | h
          · subst h; exact hw x (by simp)
          · exact hw'' x h
        · rw [heq, List.cons_append]

/-! ### The whole-string filter on structured inputs -/

theorem goodSpan {b : List Char} (h : goodItem (.span b) = true) :
    ∀ c ∈ b, c ≠ '<' := by
  intro c hc
  have := (List.all_eq_true.mp h) c hc
  simpa using this

theorem goodSeg {p : List Char} (h : goodItem (.seg p) = true) :
    ∀ c ∈ p, c ≠ '<' ∧ isPySpace c = false := by
  intro c hc
  have := (List.all_eq_true.mp h) c hc
  simp only [Bool.and_eq_true, Bool.not_eq_true'] at this
  exact ⟨by simpa using this.1, this.2⟩

theorem visibleConcat_no_ws {items : List RItem}
    (h : ∀ it ∈ items, goodItem it = true) :
    ∀ c ∈ visibleConcat items, isPySpace c = false := by
  intro c hc
  simp only [visibleConcat, List.mem_flatten, List.mem_map] at hc
  obtain ⟨l, ⟨it, hit, rfl⟩, hcl⟩ := hc
  cases it with
  | span b => simp [visibleOf] at hcl
  | seg p => exact (goodSeg (h _ hit) c hcl).2

theorem removeThink_items :
    ∀ (items : List RItem), (∀ it ∈ items, goodItem it = true) →
      removeThink ((items.map renderItem).flatten) = visibleConcat items := by
  intro items
  induction items with
  | nil => intro _; rfl
  | cons it its ih =>
    intro hg
    have hits : ∀ j ∈ its, goodItem j = true := fun j hj => hg j (by simp [hj])
    cases it with
    | span b =>
      have hb : ∀ c ∈ b, c ≠ '<' := goodSpan (hg _ (by simp))
      show removeThink ((renderItem (.span b)) ++ (its.map renderItem).flatten)
          = visibleConcat (.span b :: its)
      have : renderItem (.span b) ++ (its.map renderItem).flatten
          = startMarker ++ (b ++ (endMarker ++ (its.map renderItem).flatten)) := by
        simp [renderItem, List.append_assoc]
      rw [this, removeThink_span hb, ih hits]
      simp [visibleConcat, visibleOf]
    | seg p =>
      have hp : ∀ c ∈ p, c ≠ '<' := fun c hc => (goodSeg (hg _ (by simp)) c hc).1
      show removeThink ((renderItem (.seg p)) ++ (its.map renderItem).flatten)
          = visibleConcat (.seg p :: its)
      rw [show renderItem (.seg p) = p from rfl, removeThink_pass p hp, ih hits]
      simp [visibleConcat, visibleOf]

theorem filter_think_tags_visible {ws : List Char} {items : List RItem}
    (hws : ∀ c ∈ ws, isPySpace c = true)
    (hg : ∀ it ∈ items, goodItem it = true) :
    filter_think_tags (renderInput ws items) = visibleConcat items := by
  have hws' : ∀ c ∈ ws, c ≠ '<' := fun c hc => isPySpace_ne_lt (hws c hc)
  have h1 : removeThink (renderInput ws items)
      = ws ++ visibleConcat items := by
    rw [renderInput, removeThink_pass ws hws', removeThink_items items hg]
  have hvis := visibleConcat_no_ws hg
  obtain ⟨w', hw', h2⟩ := collapse_ws_aux
    (ws.length + (visibleConcat items).length) ws (visibleConcat items)
    (le_refl _) hws hvis
  rw [filter_think_tags, h1, h2]
  exact pyStrip_ws_app hw' hvis

/-! ### The streaming filter on structured inputs -/

theorem processChars_append (xs ys : List Char) :
    ∀ st, processChars st (xs ++ ys)
      = ((processChars (processChars st xs).1 ys).1,
         (processChars st xs).2 ++ (processChars (processChars st xs).1 ys).2) := by
  induction xs with
  | nil => intro st; simp [processChars]
  | cons c cs ih =>
    intro st
    simp only [List.cons_append, processChars, List.append_eq]
    rw [ih (stepChar st c).1]
    simp [List.append_assoc]

theorem stepChar_ws {c : Char} (hc : isPySpace c = true) :
    stepChar ⟨false, true, []⟩ c = (⟨false, true, []⟩, []) := by
  simp [stepChar, hc]

theorem processChars_ws {w : List Char} (hw : ∀ c ∈ w, isPySpace c = true) :
    processChars ⟨false, true, []⟩ w = (⟨false, true, []⟩, []) := by
  induction w with
  | nil => rfl
  | cons c cs ih =>
    simp only [processChars, stepChar_ws (hw c (by simp))]
    rw [ih (fun d hd => hw d (by simp [hd]))]
    simp

theorem processChars_startM (s : Bool) :
    processChars ⟨false, s, []⟩ startMarker = (⟨true, s, []⟩, []) := by
  cases s <;> decide

theorem processChars_endM (s : Bool) :
    processChars ⟨true, s, []⟩ endMarker = (⟨false, s, []⟩, []) := by
  cases s <;> decide

theorem stepChar_think {c : Char} (hc : c ≠ '<') (s : Bool) :
    stepChar ⟨true, s, []⟩ c = (⟨true, s, []⟩, []) := by
  simp [stepChar, hc]

theorem processChars_body {b : List Char} (hb : ∀ c ∈ b, c ≠ '<') (s : Bool) :
    processChars ⟨true, s, []⟩ b = (⟨true, s, []⟩, []) := by
  induction b with
  | nil => rfl
  | cons c cs ih =>
    simp only [processChars, stepChar_think (hb c (by simp)) s]
    rw [ih (fun d hd => hb d (by simp [hd]))]
    simp

theorem processChars_span {b : List Char} (hb : ∀ c ∈ b, c ≠ '<') (s : Bool) :
    processChars ⟨false, s, []⟩ (startMarker ++ (b ++ endMarker))
      = (⟨false, s, []⟩, []) := by
  rw [processChars_append, processChars_startM s,
    processChars_append, processChars_body hb s, processChars_endM s]
  simp

theorem stepChar_normal {c : Char} (hc : c ≠ '<') :
    stepChar ⟨false, false, []⟩ c = (⟨false, false, []⟩, [c]) := by
  simp [stepChar, hc]

theorem processChars_verbatim {p : List Char} (hp : ∀ c ∈ p, c ≠ '<') :
    processChars ⟨false, false, []⟩ p = (⟨false, false, []⟩, p) := by
  induction p with
  | nil => rfl
  | cons c cs ih =>
    simp only [processChars, stepChar_normal (hp c (by simp))]
    rw [ih (fun d hd => hp d (by simp [hd]))]
    simp

theorem stepChar_firstSeg {c : Char} (hc : c ≠ '<') (hw : isPySpace c = false)
    (s : Bool) : stepChar ⟨false, s, []⟩ c = (⟨false, false, []⟩, [c]) := by
  cases s with
  | false => exact stepChar_normal hc
  | true => simp [stepChar, hc, hw]

theorem processChars_seg {p : List Char}
    (hp : ∀ c ∈ p, c ≠ '<' ∧ isPySpace c = false) (hne : p ≠ []) (s : Bool) :
    processChars ⟨false, s, []⟩ p = (⟨false, false, []⟩, p) := by
  cases p with
  | nil => exact absurd rfl hne
  | cons c cs =>
    simp only [processChars,
      stepChar_firstSeg (hp c (by simp)).1 (hp c (by simp)).2 s]
    rw [processChars_verbatim (fun d hd => (hp d (by simp [hd])).1)]
    simp

theorem processChars_items :
    ∀ (items : List RItem) (s : Bool), (∀ it ∈ items, goodItem it = true) →
      ∃ s', processChars ⟨false, s, []⟩ ((items.map renderItem).flatten)
        = (⟨false, s', []⟩, visibleConcat items) := by
  intro items
  induction items with
  | nil => intro s _; exact ⟨s, rfl⟩
  | cons it its ih =>
    intro s hg
    have hits : ∀ j ∈ its, goodItem j = true := fun j hj => hg j (by simp [hj])
    have hflat : ((it :: its).map renderItem).flatten
        = renderItem it ++ (its.map renderItem).flatten := by simp
    cases it with
    | span b =>
      have hb : ∀ c ∈ b, c ≠ '<' := goodSpan (hg _ (by simp))
      obtain ⟨s', hih⟩ := ih s hits
      refine ⟨s', ?_⟩
      rw [hflat, processChars_append,
        show renderItem (.span b) = startMarker ++ (b ++ endMarker) from rfl,
        processChars_span hb s, hih]
      simp [visibleConcat, visibleOf]
    | seg p =>
      have hp := goodSeg (hg (.seg p) (by simp))
      by_cases hne : p = []
      · subst hne
        obtain ⟨s', hih⟩ := ih s hits
        refine ⟨s', ?_⟩
        rw [hflat, processChars_append,
          show renderItem (.seg []) = [] from rfl]
        simp only [processChars]
        rw [hih]
        simp [visibleConcat, visibleOf]
      · obtain ⟨s', hih⟩ := ih false hits
        refine ⟨s', ?_⟩
        rw [hflat, processChars_append,
          show renderItem (.seg p) = p from rfl, processChars_seg hp hne s, hih]
        simp [visibleConcat, visibleOf]

theorem streamFilter_visible {ws : List Char} {items : List RItem}
    (hws : ∀ c ∈ ws, isPySpace c = true)
    (hg : ∀ it ∈ items, goodItem it = true) :
    streamFilter (renderInput ws items) = visibleConcat items := by
  obtain ⟨s', hitems⟩ := processChars_items items true hg
  have hws' := processChars_ws hws
  simp only [streamFilter, renderInput]
  rw [processChars_append]
  rw [show initFS = (⟨false, true, []⟩ : FilterState) from rfl, hws']
  simp [hitems]

/-! ### Connection-pool lemmas -/

theorem lookupA_none {m : List (String × Nat)} {u : String}
    (h : u ∉ m.map Prod.fst) : lookupA m u = none := by
  induction m with
  | nil => rfl
  | cons p rest ih =>
    obtain ⟨v, i⟩ := p
    have hv : ¬(v = u) := by
      intro hvu
      exact h (by simp [hvu])
    simp only [lookupA, hv, if_false]
    exact ih (fun hm => h (by simp at hm ⊢; exact Or.inr hm))

theorem lookupA_cons_self (u : String) (i : Nat) (m : List (String × Nat)) :
    lookupA ((u, i) :: m) u = some i := by
  simp [lookupA]

theorem findIdxP_none {p : α → Bool} :
    ∀ {l : List α}, (∀ x ∈ l, p x = false) → findIdxP p l = none := by
  intro l
  induction l with
  | nil => intro _; rfl
  | cons x xs ih =>
    intro h
    have hx : p x = false := h x (by simp)
    simp only [findIdxP, hx, Bool.false_eq_true, if_false]
    rw [ih (fun y hy => h y (by simp [hy]))]
    rfl

theorem findIdxP_app {p : α → Bool} {b : α} (hb : p b = true) :
    ∀ (A : List α), (∀ x ∈ A, p x = false) →
      ∀ (B : List α), findIdxP p (A ++ b :: B) = some A.length := by
  intro A
  induction A with
  | nil => intro _ B; simp [findIdxP, hb]
  | cons x xs ih =>
    intro hA B
    have hx : p x = false := hA x (by simp)
    simp only [List.cons_append, findIdxP, hx, Bool.false_eq_true, if_false,
      List.append_eq]
    rw [ih (fun y hy => hA y (by simp [hy])) B]
    simp

theorem findIdxP_some {p : α → Bool} :
    ∀ {l : List α} {i : Nat}, findIdxP p l = some i →
      ∃ x, l.get? i = some x ∧ p x = true := by
  intro l
  induction l with
  | nil => intro i h; simp [findIdxP] at h
  | cons x xs ih =>
    intro i h
    simp only [findIdxP] at h
    split at h
    · simp only [Option.some.injEq] at h
      subst h
      exact ⟨x, rfl, by assumption⟩
    · cases hx : findIdxP p xs with
      | none => rw [hx] at h; simp at h
      | some j =>
        rw [hx] at h
        simp only [Option.map_some', Option.some.injEq] at h
        subst h
        obtain ⟨y, hy, hpy⟩ := ih hx
        exact ⟨y, by simpa using hy, hpy⟩

theorem updateAt_app (A : List α) (b : α) (B : List α) (f : α → α) :
    updateAt (A ++ b :: B) A.length f = A ++ f b :: B := by
  induction A with
  | nil => rfl
  | cons x xs ih =>
    simp only [List.cons_append, List.length_cons, updateAt, List.append_eq, ih]

theorem updateAt_get?_self :
    ∀ (l : List α) (i : Nat) (f : α → α), (updateAt l i f).get? i = (l.get? i).map f := by
  intro l
  induction l with
  | nil => intro i f; cases i <;> rfl
  | cons x xs ih =>
    intro i f
    cases i with
    | zero => rfl
    | succ j =>
      simp only [updateAt, List.get?_cons_succ]
      exact ih j f

theorem get?_concat_self (l : List α) (a : α) : (l ++ [a]).get? l.length = some a := by
  induction l with
  | nil => rfl
  | cons x xs ih => simpa using ih

/-- One successful distinct-owner acquire: from the `boundConns done n₀`
state it returns the next index and binds the new owner. -/
theorem acquire_step (mn mx : Nat) (idl : Int) (n₀ : Nat) (done : List String)
    (u : String) (um : List (String × Nat))
    (hd : done.length < mx) (hum : u ∉ um.map Prod.fst) :
    get_connection ⟨mn, mx, idl, boundConns done n₀, um⟩ u 0 true
      = (⟨mn, mx, idl, boundConns (done ++ [u]) n₀, (u, done.length) :: um⟩,
         some done.length) := by
  have hlookup : lookupA um u = none := lookupA_none hum
  have hbound : ∀ x ∈ done.map (fun v => (⟨true, 0, 0, true, some v⟩ : PConn)),
      isFreeLive x = false := by
    intro x hx
    simp only [List.mem_map] at hx
    obtain ⟨v, -, rfl⟩ := hx
    rfl
  have hmaplen : (done.map (fun v => (⟨true, 0, 0, true, some v⟩ : PConn))).length
      = done.length := by simp
  simp only [get_connection, hlookup]
  cases hrem : n₀ - done.length with
  | zero =>
    have hconns : boundConns done n₀
        = done.map (fun v => ⟨true, 0, 0, true, some v⟩) := by
      simp [boundConns, hrem]
    have hfind : findIdxP isFreeLive (boundConns done n₀) = none := by
      rw [hconns]; exact findIdxP_none hbound
    have hlen : (boundConns done n₀).length = done.length := by
      rw [hconns, hmaplen]
    simp only [acquireFresh, hfind, hlen, hd, if_true]
    have hbc : boundConns done n₀ ++ [newConn u 0] = boundConns (done ++ [u]) n₀ := by
      simp only [boundConns, hrem, newConn]
      have : n₀ - (done ++ [u]).length = 0 := by
        simp only [List.length_append, List.length_singleton]
        omega
      rw [this]
      simp
    rw [hbc]
  | succ m =>
    have hconns : boundConns done n₀
        = done.map (fun v => ⟨true, 0, 0, true, some v⟩)
          ++ (⟨true, 0, 0, false, none⟩ : PConn)
            :: List.replicate m ⟨true, 0, 0, false, none⟩ := by
      simp [boundConns, hrem, List.replicate_succ]
    have hfind : findIdxP isFreeLive (boundConns done n₀) = some done.length := by
      rw [hconns]
      have := findIdxP_app (p := isFreeLive)
        (b := (⟨true, 0, 0, false, none⟩ : PConn)) rfl
        (done.map (fun v => ⟨true, 0, 0, true, some v⟩)) hbound
        (List.replicate m ⟨true, 0, 0, false, none⟩)
      rw [this, hmaplen]
    simp only [acquireFresh, hfind]
    have hupd : updateAt (boundConns done n₀) done.length
        (fun c => { c with in_use := true, user_id := some u, last_used := 0 })
        = boundConns (done ++ [u]) n₀ := by
      rw [hconns, ← hmaplen, updateAt_app]
      simp only [boundConns]
      have : n₀ - (done ++ [u]).length = m := by
        simp only [List.length_append, List.length_singleton]
        omega
      rw [this]
      simp
    rw [hupd]

/-- An acquire by a fresh owner on a pool whose `mx` connections are all
bound returns `None` and leaves the state unchanged. -/
theorem acquire_exhausted (mn mx : Nat) (idl : Int) (n₀ : Nat)
    (done : List String) (u : String) (um : List (String × Nat))
    (hn : n₀ ≤ mx) (hd : done.length = mx) (hum : u ∉ um.map Prod.fst) :
    get_connection ⟨mn, mx, idl, boundConns done n₀, um⟩ u 0 true
      = (⟨mn, mx, idl, boundConns done n₀, um⟩, none) := by
  have hlookup : lookupA um u = none := lookupA_none hum
  have hrem : n₀ - done.length = 0 := by omega
  have hconns : boundConns done n₀
      = done.map (fun v => ⟨true, 0, 0, true, some v⟩) := by
    simp [boundConns, hrem]
  have hfind : findIdxP isFreeLive (boundConns done n₀) = none := by
    rw [hconns]
    refine findIdxP_none ?_
    intro x hx
    simp only [List.mem_map] at hx
    obtain ⟨v, -, rfl⟩ := hx
    rfl
  have hlen : (boundConns done n₀).length = done.length := by
    rw [hconns]; simp
  simp only [get_connection, hlookup, acquireFresh, hfind, hlen, hd]
  simp

/-- Acquiring for a list of pairwise-distinct fresh owners succeeds for
each one as long as capacity remains, assigning consecutive indices. -/
theorem runAcquires_all (mn mx : Nat) (idl : Int) (n₀ : Nat) :
    ∀ (users done : List String) (um : List (String × Nat)),
      users.Nodup → (∀ v ∈ users, v ∉ done) →
      done.length + users.length ≤ mx →
      um.map Prod.fst = done.reverse →
      ∃ um', um'.map Prod.fst = (done ++ users).reverse ∧
        runAcquires ⟨mn, mx, idl, boundConns done n₀, um⟩ users
          = (⟨mn, mx, idl, boundConns (done ++ users) n₀, um'⟩,
             (List.range users.length).map (fun i => some (done.length + i))) := by
  intro users
  induction users with
  | nil =>
    intro done um _ _ _ hkeys
    exact ⟨um, by simpa using hkeys, by simp [runAcquires]⟩
  | cons u us ih =>
    intro done um hnd hfresh hcap hkeys
    have hu : u ∉ done := hfresh u (by simp)
    have hum : u ∉ um.map Prod.fst := by
      rw [hkeys]
      simpa using hu
    have hd : done.length < mx := by
      simp only [List.length_cons] at hcap
      omega
    have hstep := acquire_step mn mx idl n₀ done u um hd hum
    have hfresh' : ∀ v ∈ us, v ∉ done ++ [u] := by
      intro v hv
      simp only [List.mem_append, List.mem_singleton]
      rintro (hvd | hvu)
      · exact hfresh v (by simp [hv]) hvd
      · subst hvu
        exact (List.nodup_cons.mp hnd).1 hv
    have hkeys' : ((u, done.length) :: um).map Prod.fst = (done ++ [u]).reverse := by
      simp [hkeys]
    have hcap' : (done ++ [u]).length + us.length ≤ mx := by
      simp only [List.length_append, List.length_cons, List.length_nil] at hcap ⊢
      omega
    obtain ⟨um', hkeysf, hrun⟩ := ih (done ++ [u]) ((u, done.length) :: um)
      (List.nodup_cons.mp hnd).2 hfresh' hcap' hkeys'
    refine ⟨um', by simpa [List.append_assoc] using hkeysf, ?_⟩
    simp only [runAcquires, hstep, hrun]
    refine Prod.mk.injEq _ _ _ _ ▸ ⟨?_, ?_⟩
    · simp [List.append_assoc]
    · simp only [List.length_cons, List.range_succ_eq_map, List.map_cons,
        List.map_map]
      refine congrArg₂ _ (by simp) ?_
      refine congrArg₂ _ ?_ rfl
      funext i
      simp only [Function.comp_apply, List.length_append, List.length_cons,
        List.length_nil]
      refine congrArg some ?_
      omega

/-- A successful `get_connection` leaves the owner bound to a live
connection at the returned index. -/
theorem acquireFresh_some {st : PoolState} {u : String} {now : Int}
    {ok : Bool} {st' : PoolState} {i : Nat}
    (h : acquireFresh st u now ok = (st', some i)) :
    lookupA st'.user_connections u = some i ∧
      ∃ c, st'.connections.get? i = some c ∧ c.connected = true := by
  cases hf : findIdxP isFreeLive st.connections with
  | some j =>
    simp only [acquireFresh, hf, Prod.mk.injEq, Option.some.injEq] at h
    obtain ⟨rfl, rfl⟩ := h
    constructor
    · exact lookupA_cons_self u j st.user_connections
    · obtain ⟨x, hx, hpx⟩ := findIdxP_some hf
      simp only [isFreeLive, Bool.and_eq_true] at hpx
      refine ⟨{ x with in_use := true, user_id := some u, last_used := now },
        ?_, hpx.2⟩
      show (updateAt st.connections j _).get? j = _
      rw [updateAt_get?_self, hx]
      rfl
  | none =>
    simp only [acquireFresh, hf] at h
    split at h
    · split at h
      · simp only [Prod.mk.injEq, Option.some.injEq] at h
        obtain ⟨rfl, rfl⟩ := h
        constructor
        · exact lookupA_cons_self u st.connections.length st.user_connections
        · exact ⟨newConn u now, get?_concat_self _ _, rfl⟩
      · simp at h
    · simp at h

theorem get_connection_some {st : PoolState} {u : String} {now : Int}
    {ok : Bool} {st' : PoolState} {i : Nat}
    (h : get_connection st u now ok = (st', some i)) :
    lookupA st'.user_connections u = some i ∧
      ∃ c, st'.connections.get? i = some c ∧ c.connected = true := by
  cases hl : lookupA st.user_connections u with
  | none =>
    simp only [get_connection, hl] at h
    exact acquireFresh_some h
  | some j =>
    cases hg : st.connections.get? j with
    | none =>
      simp only [get_connection, hl, hg] at h
      exact acquireFresh_some h
    | some c =>
      simp only [get_connection, hl, hg] at h
      split at h
      next hcon =>
        simp only [Prod.mk.injEq, Option.some.injEq] at h
        obtain ⟨rfl, rfl⟩ := h
        refine ⟨hl, { c with last_used := now }, ?_, hcon⟩
        show (updateAt st.connections j _).get? j = _
        rw [updateAt_get?_self, hg]
        rfl
      next => exact acquireFresh_some h

theorem runAcquires_append (us vs : List String) :
    ∀ st, runAcquires st (us ++ vs)
      = ((runAcquires (runAcquires st us).1 vs).1,
         (runAcquires st us).2 ++ (runAcquires (runAcquires st us).1 vs).2) := by
  induction us with
  | nil => intro st; simp [runAcquires]
  | cons u us' ih =>
    intro st
    simp only [List.cons_append, runAcquires, List.append_eq]
    rcases h1 : get_connection st u 0 true with ⟨st1, r⟩
    simp only []
    rcases h2 : runAcquires st1 (us' ++ vs) with ⟨st2, rs⟩
    rw [ih st1] at h2
    rcases h3 : runAcquires st1 us' with ⟨st3, rs3⟩
    rw [h3] at h2
    simp only [Prod.mk.injEq] at h2
    obtain ⟨h2a, h2b⟩ := h2
    simp only [h3, h2a, ← h2b, List.append_assoc]

/-! ### Batch recognition lemmas -/

theorem chunkF_congr :
    ∀ (f1 : Nat) (l : List Nat) (f2 : Nat), l.length ≤ f1 → l.length ≤ f2 →
      chunkF f1 l = chunkF f2 l := by
  intro f1
  induction f1 with
  | zero =>
    intro l f2 h1 _
    have hl : l = [] := List.eq_nil_of_length_eq_zero (Nat.le_zero.mp h1)
    subst hl
    cases f2 <;> simp [chunkF]
  | succ n ih =>
    intro l f2 h1 h2
    cases l with
    | nil => cases f2 <;> simp [chunkF]
    | cons c cs =>
      cases f2 with
      | zero => simp at h2
      | succ m =>
        simp only [List.length_cons, Nat.add_le_add_iff_right] at h1 h2
        simp only [chunkF]
        refine congrArg _ (ih _ m ?_ ?_) <;>
          simp only [List.length_drop, List.length_cons] <;> omega

theorem chunkBytes_cons (c : Nat) (cs : List Nat) :
    chunkBytes (c :: cs) = ((c :: cs).take 960) :: chunkBytes ((c :: cs).drop 960) := by
  simp only [chunkBytes, List.length_cons, chunkF]
  refine congrArg _ (chunkF_congr cs.length _ _ ?_ (le_refl _))
  simp only [List.length_drop, List.length_cons]
  omega

theorem chunkBytes_flatten : ∀ (l : List Nat), (chunkBytes l).flatten = l
  | [] => rfl
  | c :: cs => by
    rw [chunkBytes_cons, List.flatten_cons, chunkBytes_flatten ((c :: cs).drop 960),
      List.take_append_drop]
  termination_by l => l.length
  decreasing_by
    simp only [List.length_drop, List.length_cons]
    omega

theorem chunkBytes_mem : ∀ (l : List Nat), ∀ ch ∈ chunkBytes l,
    ch.length ≤ 960 ∧ ch ≠ []
  | [] => by intro ch hch; simp [chunkBytes, chunkF] at hch
  | c :: cs => by
    intro ch hch
    rw [chunkBytes_cons] at hch
    rcases List.mem_cons.mp hch with h | h
    · subst h
      constructor
      · simp only [List.length_take]
        omega
      · simp
    · exact chunkBytes_mem ((c :: cs).drop 960) ch h
  termination_by l => l.length
  decreasing_by
    simp only [List.length_drop, List.length_cons]
    omega

theorem chunkBytes_eq_nil : ∀ {l : List Nat}, chunkBytes l = [] → l = [] := by
  intro l h
  cases l with
  | nil => rfl
  | cons c cs => rw [chunkBytes_cons] at h; simp at h

theorem chunkBytes_dropLast : ∀ (l : List Nat), ∀ ch ∈ (chunkBytes l).dropLast,
    ch.length = 960
  | [] => by intro ch hch; simp [chunkBytes, chunkF] at hch
  | c :: cs => by
    intro ch hch
    rw [chunkBytes_cons] at hch
    cases hrest : chunkBytes ((c :: cs).drop 960) with
    | nil => rw [hrest] at hch; simp at hch
    | cons r rs =>
      rw [hrest, List.dropLast_cons_of_ne_nil (by simp)] at hch
      rcases List.mem_cons.mp hch with h | h
      · subst h
        have hne : (c :: cs).drop 960 ≠ [] := by
          intro hnil
          rw [hnil] at hrest
          simp [chunkBytes, chunkF] at hrest
        have : 960 < (c :: cs).length := by
          by_contra hle
          push_neg at hle
          exact hne (List.drop_eq_nil_of_le hle)
        simp only [List.length_take]
        omega
      · exact chunkBytes_dropLast ((c :: cs).drop 960) ch (by rw [hrest]; exact h)
  termination_by l => l.length
  decreasing_by
    simp only [List.length_drop, List.length_cons]
    omega

theorem spaceJoin_append (a b : List (List Char)) :
    spaceJoin (a ++ b) = spaceJoin a ++ spaceJoin b := by
  simp [spaceJoin]

theorem accumLoop_fragments :
    ∀ (events : List (Option BEvent)) (acc : List Char),
      accumLoop acc events = acc ++ spaceJoin (specFinalFragments events) := by
  intro events
  induction events with
  | nil => intro acc; simp [accumLoop, specFinalFragments, spaceJoin]
  | cons oe es ih =>
    intro acc
    cases oe with
    | none => simp only [accumLoop, specFinalFragments]; exact ih acc
    | some e =>
      simp only [accumLoop, specFinalFragments]
      cases hf : e.is_final with
      | true =>
        simp only [if_true]
        cases ht : e.text with
        | none => simp [accumStep, ht, spaceJoin]
        | some t =>
          simp only [accumStep, ht]
          split
          · simp [spaceJoin]
          · simp [spaceJoin]
      | false =>
        simp only [Bool.false_eq_true, if_false]
        rw [ih (accumStep acc e)]
        rw [spaceJoin_append]
        cases ht : e.text with
        | none => simp [accumStep, ht, spaceJoin]
        | some t =>
          simp only [accumStep, ht]
          split
          · simp [spaceJoin]
          · simp [spaceJoin]

/-! ### Resampling lemmas -/

theorem unpackI16_length : ∀ (pcm : List Nat),
    (unpackI16 pcm).length = pcm.length / 2
  | [] => rfl
  | [_] => by simp [unpackI16]
  | b0 :: b1 :: rest => by
    simp only [unpackI16, List.length_cons, unpackI16_length rest]
    omega

theorem packFlatten_length : ∀ (vals : List Int),
    ((vals.map packI16).flatten).length = 2 * vals.length := by
  intro vals
  induction vals with
  | nil => rfl
  | cons v vs ih =>
    simp only [List.map_cons, List.flatten_cons, List.length_append, ih,
      List.length_cons]
    simp [packI16]
    omega

theorem resampleSamples_length (samples : List Int) (fr toR : Nat) :
    (resampleSamples samples fr toR).length
      = (pyTrunc ((samples.length : ℚ) * ((toR : ℚ) / (fr : ℚ)))).toNat := by
  simp only [resampleSamples, List.length_map, List.length_range]

/-! ### `clean_recognition_text` on tag-free text -/

theorem matchTag_ne {c : Char} (hc : c ≠ '<') (cs : List Char) :
    matchTag (c :: cs) = none := by
  cases cs with
  | nil => rfl
  | cons c2 cs' => simp [matchTag, hc]

theorem ttStep_ne {c : Char} (hc : c ≠ '<') (cs : List Char) :
    ttStep (c :: cs) = none := by
  simp [ttStep, matchTag_ne hc]

theorem stStep_ne {c : Char} (hc : c ≠ '<') (cs : List Char) :
    stStep (c :: cs) = none := by
  simp [stStep, matchTag_ne hc]

theorem subTriple_pass : ∀ {l : List Char}, (∀ c ∈ l, c ≠ '<') → subTriple l = l := by
  intro l
  induction l with
  | nil => intro _; rfl
  | cons c cs ih =>
    intro hl
    rw [subTriple_cons_none (ttStep_ne (hl c (by simp)) cs)]
    rw [ih (fun d hd => hl d (by simp [hd]))]

theorem subSingle_pass : ∀ {l : List Char}, (∀ c ∈ l, c ≠ '<') → subSingle l = l := by
  intro l
  induction l with
  | nil => intro _; rfl
  | cons c cs ih =>
    intro hl
    rw [subSingle_cons_none (stStep_ne (hl c (by simp)) cs)]
    rw [ih (fun d hd => hl d (by simp [hd]))]

theorem clean_ws {raw : List Char} (h : ∀ c ∈ raw, isPySpace c = true) :
    clean_recognition_text raw = [] := by
  by_cases hr : raw = []
  · subst hr; rfl
  · have hlt : ∀ c ∈ raw, c ≠ '<' := fun c hc => isPySpace_ne_lt (h c hc)
    simp only [clean_recognition_text, hr, if_false]
    rw [subTriple_pass hlt, subSingle_pass hlt]
    exact pyStrip_all_ws h

theorem llmCount_append (a b : List SAction) :
    llmCount (a ++ b) = llmCount a + llmCount b := by
  simp [llmCount, List.filter_append]

/-! ## Claim theorems -/

/-- Claim C1, counterexample: on the input `"a\n\nb"` — which contains zero
hidden reasoning spans — the streaming filter emits the text verbatim while
the whole-string filter additionally collapses the blank line, so the two
visible outputs differ.  The claim as stated (equality for every zero-span
input) is therefore false. -/
theorem claim_C1_counterexample :
    streamFilter ['a', '\n', '\n', 'b'] ≠ filter_think_tags ['a', '\n', '\n', 'b'] := by
  decide

/-- Claim C1, amended: feeding a string one character at a time through the
streaming filter (with its end-of-stream flush) produces the same visible
output as the whole-string `filter_think_tags` for every input consisting
of optional leading whitespace followed by any interleaving of well-formed
`<think>…</think>` spans (bodies free of `<`) and visible segments free of
`<` and whitespace — covering zero spans, one span, multiple spans, and
markers straddling the one-character chunk boundaries.  On general inputs
the two differ (see the counterexample): the whole-string filter also
collapses blank lines and strips trailing whitespace. -/
theorem claim_C1_amended (ws : List Char) (items : List RItem)
    (hws : ∀ c ∈ ws, isPySpace c = true)
    (hg : ∀ it ∈ items, goodItem it = true) :
    streamFilter (renderInput ws items) = filter_think_tags (renderInput ws items) := by
  rw [streamFilter_visible hws hg, filter_think_tags_visible hws hg]

/-- Witness for C1 at the spec's own scenario
`"  <think>secret</think>Hello"`. -/
theorem claim_C1_witness :
    streamFilter (renderInput [' ', ' ']
        [RItem.span ['s', 'e', 'c', 'r', 'e', 't'],
         RItem.seg ['H', 'e', 'l', 'l', 'o']])
      = filter_think_tags (renderInput [' ', ' ']
        [RItem.span ['s', 'e', 'c', 'r', 'e', 't'],
         RItem.seg ['H', 'e', 'l', 'l', 'o']]) :=
  claim_C1_amended _ _ (by decide) (by decide)

/-- Claim C2 (code bug): a sweep tick over a pool with `min = 2` holding
three free connections, all idle beyond the 300-second threshold, removes
all three — the pool drops to 0 < `min` connections, because the guard
`len(self.connections) > self.min_connections` is evaluated against the
pre-removal length for every candidate. -/
theorem claim_C2_bug :
    (cleanup_idle_tick
        (⟨2, 10, 300, List.replicate 3 ⟨true, 0, 0, false, none⟩, []⟩ : PoolState)
        1000).connections.length = 0
    ∧ (List.replicate 3 (⟨true, 0, 0, false, none⟩ : PConn)).all
        (fun c => !c.in_use && c.connected) = true := by
  decide

/-- Claim C3, counterexample: a Final event (`mode = "2pass-offline"`,
text `"hi"`) arriving while `is_ai_speaking` is set leaves the rolling
`accumulated_text` unchanged — the whole text block is skipped — contrary
to the claim that the rolling text is updated. -/
theorem claim_C3_counterexample :
    (handle_funasr_event ⟨['x'], [], true⟩
        ⟨some ['h', 'i'], modeOff2⟩).1.accumulated_text ≠ ['h', 'i']
    ∧ handle_funasr_event ⟨['x'], [], true⟩ ⟨some ['h', 'i'], modeOff2⟩
        = (⟨['x'], [], true⟩, []) := by
  decide

/-- Claim C3, amended: at most one LLM call is active per session (calls
are awaited inline by the single listener task), and an event arriving
while the in-flight flag `is_ai_speaking` is set is dropped entirely: it
does not update the rolling text, does not update the last-finalized text,
and does not launch a second LLM call. -/
theorem claim_C3_amended (st : SessState) (ev : RecEvent)
    (h : st.is_ai_speaking = true) :
    handle_funasr_event st ev = (st, []) := by
  cases ht : ev.text with
  | none => simp [handle_funasr_event, ht]
  | some raw => simp [handle_funasr_event, ht, h]

/-- Witness for C3 at a concrete in-flight state. -/
theorem claim_C3_witness :
    handle_funasr_event ⟨[], [], true⟩ ⟨some ['h'], modeOff⟩ = (⟨[], [], true⟩, []) :=
  claim_C3_amended _ _ rfl

/-- Claim C4: starting from a pool with `n₀ ≤ max` live free connections
and successful creation, acquiring for `max` distinct owners returns a
connection every time — none of the first `max` acquires is "exhausted" —
and the acquire for the `(max+1)`-th distinct owner returns `None`. -/
theorem claim_C4 (mn mx : Nat) (idl : Int) (n₀ : Nat) (users : List String)
    (u : String) (hn : n₀ ≤ mx) (hlen : users.length = mx)
    (hnd : (users ++ [u]).Nodup) :
    (∀ r ∈ (runAcquires (mkPool mn mx idl n₀) (users ++ [u])).2.take mx,
        r.isSome = true)
    ∧ (runAcquires (mkPool mn mx idl n₀) (users ++ [u])).2.get? mx = some none := by
  have hndu := List.nodup_append.mp hnd
  have hstart : mkPool mn mx idl n₀
      = ⟨mn, mx, idl, boundConns [] n₀, []⟩ := rfl
  obtain ⟨um', hkeys, hrun⟩ := runAcquires_all mn mx idl n₀ users [] []
    hndu.1 (by simp) (by simp [hlen]) rfl
  have hu_not : u ∉ users := fun hu => hndu.2.2 hu (by simp)
  have hum' : u ∉ um'.map Prod.fst := by
    rw [hkeys]
    simpa using hu_not
  have hexh := acquire_exhausted mn mx idl n₀ users u um' hn
    hlen hum'
  have happ := runAcquires_append users [u] (mkPool mn mx idl n₀)
  rw [hstart, hrun] at happ
  have hlast : runAcquires
      (⟨mn, mx, idl, boundConns ([] ++ users) n₀, um'⟩ : PoolState) [u]
      = (⟨mn, mx, idl, boundConns ([] ++ users) n₀, um'⟩, [(none : Option Nat)]) := by
    simp only [runAcquires, List.nil_append, hexh]
  rw [hlast] at happ
  have hres : (runAcquires (mkPool mn mx idl n₀) (users ++ [u])).2
      = (List.range users.length).map
          (fun i => some (([] : List String).length + i)) ++ [none] := by
    rw [hstart, happ]
  have hlen2 : ((List.range users.length).map
      (fun i => some (([] : List String).length + i)) : List (Option Nat)).length
      = mx := by
    simp [hlen]
  constructor
  · intro r hr
    rw [hres] at hr
    rw [List.take_append_of_le_length (by rw [hlen2])] at hr
    have hr2 := List.mem_of_mem_take hr
    simp only [List.mem_map] at hr2
    obtain ⟨i, -, rfl⟩ := hr2
    rfl
  · rw [hres, ← hlen2]
    exact get?_concat_self _ _

/-- Witness for C4: capacity 2, one initial connection, owners a, b, c. -/
theorem claim_C4_witness :
    (∀ r ∈ (runAcquires (mkPool 1 2 300 1) (["a", "b"] ++ ["c"])).2.take 2,
        r.isSome = true)
    ∧ (runAcquires (mkPool 1 2 300 1) (["a", "b"] ++ ["c"])).2.get? 2
        = some none :=
  claim_C4 1 2 300 1 ["a", "b"] "c" (by decide) (by decide) (by decide)

/-- Claim C5, counterexample: with two finalized fragments `"ab"` and
`"cd"`, `recognize_audio` returns `"ab cd"` (the fragments joined with a
space separator and passed through tag cleaning and stripping), not their
concatenation `"abcd"` — the claim's "concatenation of all finalized text
fragments" is false as stated. -/
theorem claim_C5_counterexample :
    recognizeReturn
        [some ⟨some ['a', 'b'], modeOff, false⟩,
         some ⟨some ['c', 'd'], modeOff, true⟩]
      ≠ (specFinalFragments
          [some ⟨some ['a', 'b'], modeOff, false⟩,
           some ⟨some ['c', 'd'], modeOff, true⟩]).flatten := by
  decide

/-- Claim C5, amended: batch recognition sends one offline-mode config
frame, then the PCM buffer as sequential 960-byte frames (every frame
except possibly the last is exactly 960 bytes, no frame is empty, and the
frames concatenate back to the input buffer), then an end-of-speech config
frame; it polls until an event carries the final flag (or the stream ends
at the 60-second bound) and returns the finalized fragments joined by
single spaces, tag-cleaned and whitespace-stripped — not their plain
concatenation. -/
theorem claim_C5_amended (pcm : List Nat) (sampleRate : Nat)
    (events : List (Option BEvent)) :
    recognizeSent pcm sampleRate
      = AsrMsg.cfg (offlineConfig sampleRate)
        :: ((chunkBytes pcm).map AsrMsg.pcmFrame ++ [AsrMsg.cfg endSpeechConfig])
    ∧ (chunkBytes pcm).flatten = pcm
    ∧ (∀ ch ∈ (chunkBytes pcm).dropLast, ch.length = 960)
    ∧ (∀ ch ∈ chunkBytes pcm, ch.length ≤ 960 ∧ ch ≠ [])
    ∧ recognizeReturn events
        = clean_recognition_text (pyStrip (spaceJoin (specFinalFragments events))) := by
  refine ⟨rfl, chunkBytes_flatten pcm, chunkBytes_dropLast pcm,
    chunkBytes_mem pcm, ?_⟩
  rw [recognizeReturn, accumLoop_fragments events []]
  rw [List.nil_append]

/-- Witness for C5: a 961-byte buffer frames as 960 + 1, and a concrete
event stream is returned space-joined. -/
theorem claim_C5_witness :
    ((List.replicate 960 0 : List Nat) ∈
        (chunkBytes (List.replicate 961 0)).dropLast
      → (List.replicate 960 0 : List Nat).length = 960)
    ∧ (([5, 6] : List Nat) ∈ chunkBytes [5, 6]
      → ([5, 6] : List Nat).length ≤ 960 ∧ ([5, 6] : List Nat) ≠ [])
    ∧ (chunkBytes [5, 6]).flatten = [5, 6]
    ∧ recognizeReturn [some ⟨some ['h', 'i'], modeOff, true⟩]
        = clean_recognition_text (pyStrip (spaceJoin (specFinalFragments
            [some ⟨some ['h', 'i'], modeOff, true⟩]))) :=
  ⟨(claim_C5_amended (List.replicate 961 0) 16000 []).2.2.1 _,
   (claim_C5_amended [5, 6] 16000 []).2.2.2.1 _,
   (claim_C5_amended [5, 6] 16000 []).2.1,
   (claim_C5_amended [] 16000
     [some ⟨some ['h', 'i'], modeOff, true⟩]).2.2.2.2⟩

/-- Claim C6: two consecutive Final events with identical text (the first
novel and non-blank, no LLM call in flight) trigger exactly one LLM call —
the exact repeat is ignored; and a Final event whose text is empty or
whitespace-only (for any mode and any state) triggers no LLM call. -/
theorem claim_C6 :
    (∀ (st : SessState) (raw : List Char),
      st.is_ai_speaking = false →
      clean_recognition_text raw ≠ [] →
      pyStrip (clean_recognition_text raw) ≠ [] →
      clean_recognition_text raw ≠ st.last_complete_text →
      llmCount ((handle_funasr_event st ⟨some raw, modeOff2⟩).2
        ++ (handle_funasr_event (handle_funasr_event st ⟨some raw, modeOff2⟩).1
              ⟨some raw, modeOff2⟩).2) = 1)
    ∧ (∀ (st : SessState) (raw m : List Char),
        (∀ c ∈ raw, isPySpace c = true) →
        llmCount (handle_funasr_event st ⟨some raw, m⟩).2 = 0) := by
  constructor
  · intro st raw h0 h1 h2 h3
    have hmode : ¬(modeOff2 = modeOnline) := by decide
    have hfirst : handle_funasr_event st ⟨some raw, modeOff2⟩
        = (⟨raw, clean_recognition_text raw, st.is_ai_speaking⟩,
           [.finalMsg (clean_recognition_text raw),
            .llmCall (clean_recognition_text raw)]) := by
      simp [handle_funasr_event, h0, hmode, h1, h2, h3]
    have hsecond : handle_funasr_event
        (⟨raw, clean_recognition_text raw, st.is_ai_speaking⟩ : SessState)
        ⟨some raw, modeOff2⟩
        = (⟨raw, clean_recognition_text raw, st.is_ai_speaking⟩, []) := by
      simp [handle_funasr_event, h0, hmode]
    rw [hfirst]
    simp only []
    rw [hsecond]
    simp [llmCount_append, llmCount]
  · intro st raw m hws
    have hd : clean_recognition_text raw = [] := clean_ws hws
    by_cases hsp : st.is_ai_speaking
    · simp [handle_funasr_event, hsp, llmCount]
    · by_cases hm1 : m = modeOnline
      · simp [handle_funasr_event, hsp, hm1, llmCount]
      · by_cases hm2 : m = modeOff2 ∨ m = modeOff
        · simp [handle_funasr_event, hsp, hm1, hm2, hd, llmCount]
        · simp [handle_funasr_event, hsp, hm1, hm2, llmCount]

/-- Witness for C6: the dedup scenario on "hi" and the blank scenario on
a single space. -/
theorem claim_C6_witness :
    llmCount ((handle_funasr_event ⟨[], [], false⟩ ⟨some ['h', 'i'], modeOff2⟩).2
      ++ (handle_funasr_event
            (handle_funasr_event ⟨[], [], false⟩ ⟨some ['h', 'i'], modeOff2⟩).1
            ⟨some ['h', 'i'], modeOff2⟩).2) = 1
    ∧ llmCount (handle_funasr_event ⟨[], [], false⟩ ⟨some [' '], modeOff⟩).2 = 0 :=
  ⟨claim_C6.1 ⟨[], [], false⟩ ['h', 'i'] rfl (by decide) (by decide) (by decide),
   claim_C6.2 ⟨[], [], false⟩ [' '] modeOff (by decide)⟩

/-- Claim C7: when the acquire path reaches connection creation (no
existing binding, no free live connection, capacity available) and the
creation fails (connect or initial config raises), the pool's bookkeeping
is left exactly unchanged and the call returns `None`: a new connection is
appended only after it is fully connected and configured. -/
theorem claim_C7 (st : PoolState) (u : String) (now : Int)
    (h1 : lookupA st.user_connections u = none)
    (h2 : findIdxP isFreeLive st.connections = none)
    (h3 : st.connections.length < st.max_connections) :
    get_connection st u now false = (st, none) := by
  simp [get_connection, h1, acquireFresh, h2, h3]

/-- Witness for C7 at an empty pool of capacity 2. -/
theorem claim_C7_witness :
    get_connection (mkPool 1 2 300 0) "a" 5 false = (mkPool 1 2 300 0, none) :=
  claim_C7 (mkPool 1 2 300 0) "a" 5 (by decide) (by decide) (by decide)

/-- Claim C8: resampling with equal source and target rates returns the
byte-identical input, and resampling mono 16-bit PCM from 8000 Hz to
16000 Hz yields exactly twice as many samples (hence within the claimed
±1 bound). -/
theorem claim_C8 :
    (∀ (pcm : List Nat) (r : Nat), resamplePcm pcm r r = some pcm)
    ∧ (∀ pcm : List Nat, 2 ∣ pcm.length →
        ∃ out, resamplePcm pcm 8000 16000 = some out
          ∧ sampleCount out = 2 * sampleCount pcm) := by
  constructor
  · intro pcm r
    simp [resamplePcm]
  · intro pcm h2
    obtain ⟨k, hk⟩ := h2
    have hmod : ¬(pcm.length % 2 ≠ 0) := by omega
    have hres : resamplePcm pcm 8000 16000
        = some (((resampleSamples (unpackI16 pcm) 8000 16000).map packI16).flatten) := by
      simp [resamplePcm, hmod]
    refine ⟨_, hres, ?_⟩
    have hsl : (unpackI16 pcm).length = pcm.length / 2 := unpackI16_length pcm
    have hnew : (resampleSamples (unpackI16 pcm) 8000 16000).length
        = 2 * (unpackI16 pcm).length := by
      rw [resampleSamples_length]
      rw [show ((16000 : Nat) : ℚ) / ((8000 : Nat) : ℚ) = 2 from by norm_num]
      rw [show (((unpackI16 pcm).length : ℚ) * 2)
          = ((2 * (unpackI16 pcm).length : ℕ) : ℚ) from by push_cast; ring]
      rw [show pyTrunc ((2 * (unpackI16 pcm).length : ℕ) : ℚ)
          = ((2 * (unpackI16 pcm).length : ℕ) : ℤ) from ?_]
      · exact Int.toNat_natCast _
      · unfold pyTrunc
        rw [if_pos (by positivity)]
        exact Int.floor_natCast _
    rw [sampleCount, packFlatten_length, hnew, hsl, sampleCount]
    omega

/-- Witness for C8 on the 4-byte buffer `[1,0,2,0]` (samples 1 and 2). -/
theorem claim_C8_witness :
    resamplePcm [9, 1] 16000 16000 = some [9, 1]
    ∧ (2 ∣ ([1, 0, 2, 0] : List Nat).length
       ∧ ∃ out, resamplePcm [1, 0, 2, 0] 8000 16000 = some out
          ∧ sampleCount out = 2 * sampleCount [1, 0, 2, 0]) :=
  ⟨claim_C8.1 [9, 1] 16000, by decide, claim_C8.2 [1, 0, 2, 0] (by decide)⟩

/-- Claim C9: two `get_connection` calls for the same owner with no
intervening release return the same connection, provided the connection
bound by the first call is still live at the second call (in the model no
external disconnect occurs, so the proviso holds automatically). -/
theorem claim_C9 (st : PoolState) (u : String) (n1 n2 : Int) (ok1 ok2 : Bool)
    (st1 : PoolState) (i : Nat)
    (h : get_connection st u n1 ok1 = (st1, some i))
    (hlive : ∃ c, st1.connections.get? i = some c ∧ c.connected = true) :
    (get_connection st1 u n2 ok2).2 = some i := by
  obtain ⟨hl, -⟩ := get_connection_some h
  obtain ⟨c, hg, hc⟩ := hlive
  have hg' : st1.connections[i]? = some c := by simpa using hg
  simp [get_connection, hl, hg', hc]

/-- Witness for C9: acquire "a" twice on a fresh one-connection pool. -/
theorem claim_C9_witness :
    (get_connection ((get_connection (mkPool 1 2 300 1) "a" 0 true).1)
      "a" 7 true).2 = some 0 :=
  claim_C9 (mkPool 1 2 300 1) "a" 0 7 true true
    ((get_connection (mkPool 1 2 300 1) "a" 0 true).1) 0 (by decide) (by decide)

/-- Claim C10, counterexample: in the LeadingSkip state with pending
buffer `"<t"`, an arriving `'<'` is *not* appended and flushed — it
overwrites the buffer (`pending_content = '<'`, nothing emitted) and *does*
begin a new marker match: on the full input `"<t<think>x</think>a"` the
span opened by that second `'<'` is recognized and stripped, leaving
output `"a"` rather than the flush-through text the claim predicts. -/
theorem claim_C10_counterexample :
    stepChar ⟨false, true, ['<', 't']⟩ '<' = (⟨false, true, ['<']⟩, [])
    ∧ (stepChar ⟨false, true, ['<', 't']⟩ '<').2 ≠ ['<', 't', '<']
    ∧ streamFilter ['<', 't', '<', 't', 'h', 'i', 'n', 'k', '>', 'x',
        '<', '/', 't', 'h', 'i', 'n', 'k', '>', 'a'] = ['a'] := by
  decide

/-- Claim C10, amended: in the Normal state a character that breaks a
pending start-marker prefix match is consumed — appended to the pending
buffer, emitted with the flush, and the buffer cleared, so it is never
re-evaluated as the start of a new marker (in particular a breaking `'<'`
cannot begin a new match there).  In the LeadingSkip state, however, an
arriving `'<'` while a prefix match is pending restarts the match buffer
with nothing emitted. -/
theorem claim_C10_amended :
    (∀ (p : List Char) (c : Char), p ≠ [] → p.length < 7 →
      (p ++ [c]).isPrefixOf startMarker = false →
      stepChar ⟨false, false, p⟩ c = (⟨false, false, []⟩, p ++ [c]))
    ∧ (∀ p : List Char, p ≠ [] →
        stepChar ⟨false, true, p⟩ '<' = (⟨false, true, ['<']⟩, [])) := by
  constructor
  · intro p c hne hlen hnp
    have hnm : ¬(p ++ [c] = startMarker) := by
      intro hm
      rw [hm] at hnp
      rw [show startMarker.isPrefixOf startMarker = true from by decide] at hnp
      simp at hnp
    simp [stepChar, hne, hlen, hnm, hnp]
  · intro p hp
    simp [stepChar, isPySpace]

/-- Witness for C10: breaking characters `'x'` and `'<'` after pending
`"<"` in Normal, and `'<'` after pending `"<t"` in LeadingSkip. -/
theorem claim_C10_witness :
    stepChar ⟨false, false, ['<']⟩ 'x' = (⟨false, false, []⟩, ['<', 'x'])
    ∧ stepChar ⟨false, false, ['<']⟩ '<' = (⟨false, false, []⟩, ['<', '<'])
    ∧ stepChar ⟨false, true, ['<', 't']⟩ '<' = (⟨false, true, ['<']⟩, []) :=
  ⟨claim_C10_amended.1 ['<'] 'x' (by decide) (by decide) (by decide),
   claim_C10_amended.1 ['<'] '<' (by decide) (by decide) (by decide),
   claim_C10_amended.2 ['<', 't'] (by decide)⟩

end DjangoWebServer
